import Mathlib

/-!
Verification of the progress core of `slycer` (src/main.rs): the yt-dlp
progress-line parser `parse_ytdlp_progress`, the capacity-5 recent-lines
buffer used by the two output tailer threads of `run_ytdlp_with_progress`,
and the exit-status handling of the process runner.

Lines are modelled as `List Char` (Rust `&str` viewed as its character
sequence).  Every definition below is a direct translation of the
corresponding Rust code; comments cite the source construct.
-/

/-- Model of Rust `char::is_whitespace` (the Unicode `White_Space` property),
expressed on code points.  Used by `split_whitespace`. -/
def isWs (c : Char) : Bool :=
  decide (c.toNat = 32 ∨ (9 ≤ c.toNat ∧ c.toNat ≤ 13) ∨ c.toNat = 133 ∨ c.toNat = 160 ∨
    c.toNat = 5760 ∨ (8192 ≤ c.toNat ∧ c.toNat ≤ 8202) ∨ c.toNat = 8232 ∨ c.toNat = 8233 ∨
    c.toNat = 8239 ∨ c.toNat = 8287 ∨ c.toNat = 12288)

/-- Model of Rust `char::to_digit(10).is_some()`: ASCII digit test, on code points. -/
def isDigitC (c : Char) : Bool :=
  decide (48 ≤ c.toNat ∧ c.toNat ≤ 57)

/-- Numeric value of an ASCII digit character (`c.to_digit(10)`). -/
def digitVal (c : Char) : Nat := c.toNat - 48

/-- Accumulator-passing splitter behind `splitWs`; collects the current token
in reverse in `acc`. -/
def splitWsAux : List Char → List Char → List (List Char)
  | [], acc => if acc = [] then [] else [acc.reverse]
  | c :: rest, acc =>
    if isWs c then
      if acc = [] then splitWsAux rest []
      else acc.reverse :: splitWsAux rest []
    else splitWsAux rest (c :: acc)

/-- Model of Rust `str::split_whitespace`: the maximal runs of
non-whitespace characters, in order (empty tokens never occur). -/
def splitWs (cs : List Char) : List (List Char) := splitWsAux cs []

/-- First piece of Rust `token.split('.')` (the part before the first dot;
the whole token when no dot occurs). -/
def splitDotFirst (cs : List Char) : List Char :=
  cs.takeWhile (fun c => decide (c ≠ '.'))

/-- Second piece of Rust `token.split('.')`: `none` when the token has no
dot, otherwise the (possibly empty) part between the first and second dot. -/
def splitDotSecond (cs : List Char) : Option (List Char) :=
  match cs.dropWhile (fun c => decide (c ≠ '.')) with
  | [] => none
  | _ :: rest => some (rest.takeWhile (fun c => decide (c ≠ '.')))

/-- Strip the optional leading `+` sign accepted by Rust `u64::from_str`. -/
def stripPlus (cs : List Char) : List Char :=
  match cs with
  | [] => []
  | c :: rest => if c = '+' then rest else c :: rest

/-- Decimal value of a digit string (most significant digit first). -/
def digitsVal (ds : List Char) : Nat :=
  ds.foldl (fun a c => a * 10 + digitVal c) 0

/-- Model of Rust `str::parse::<u64>()`: an optional `+` sign followed by at
least one ASCII digit, failing on overflow past `u64::MAX`. -/
def parseU64 (cs : List Char) : Option Nat :=
  let ds := stripPlus cs
  if ds = [] then none
  else if ds.all isDigitC then
    if digitsVal ds < 18446744073709551616 then some (digitsVal ds) else none
  else none

/-- The fractional digit of a percentage token: the first character of the
second `split('.')` piece when it is a digit, else 0
(`it.next().and_then(|s| s.chars().next()).and_then(|c| c.to_digit(10)).map_or(0, ...)`). -/
def fracDigit (token : List Char) : Nat :=
  match splitDotSecond token with
  | none => 0
  | some [] => 0
  | some (c :: _) => if isDigitC c then digitVal c else 0

/-- The percentage token of a line: the last whitespace-separated token
before the first `%` (`line.split('%').next()?.split_whitespace().last()?`). -/
def percentToken (line : List Char) : Option (List Char) :=
  (splitWs (line.takeWhile (fun c => decide (c ≠ '%')))).getLast?

/-- The permille value computed by the parser:
`whole.parse::<u64>()` then `whole*10 + frac` with saturating arithmetic,
capped by `.min(1000)`.  (Since the final cap is 1000 and saturation only
matters above `u64::MAX > 1000`, exact `Nat` arithmetic under `min _ 1000`
computes the same value as the saturating `u64` operations.) -/
def permilleOf (line : List Char) : Option Nat :=
  match percentToken line with
  | none => none
  | some token =>
    match parseU64 (splitDotFirst token) with
    | none => none
    | some whole => some (min (whole * 10 + fracDigit token) 1000)

/-- Model of Rust `String::replace(" ETA", "")`: remove every (leftmost,
non-overlapping) occurrence of the four characters `' ' 'E' 'T' 'A'`. -/
def replaceEta : List Char → List Char
  | [] => []
  | [c] => [c]
  | [c, c2] => [c, c2]
  | [c, c2, c3] => [c, c2, c3]
  | c :: c2 :: c3 :: c4 :: rest =>
    if c = ' ' ∧ c2 = 'E' ∧ c3 = 'T' ∧ c4 = 'A' then replaceEta rest
    else c :: replaceEta (c2 :: c3 :: c4 :: rest)

/-- The keyword token `"at"` recognized by the speed scan. -/
def atKw : List Char := ['a', 't']

/-- The placeholder token `"Unknown"` recognized by the speed and ETA scans. -/
def unknownKw : List Char := ['U', 'n', 'k', 'n', 'o', 'w', 'n']

/-- The keyword token `"ETA"` recognized by the ETA scan. -/
def etaKw : List Char := ['E', 'T', 'A']

/-- The speed/ETA scanning loop of `parse_ytdlp_progress`: walk the
whitespace tokens of the line with a single iterator; on `"at"` consume the
value token and a unit token (discarding both when the value is
`"Unknown"`, otherwise recording `"<value> <unit>"` with `" ETA"`
stripped); on `"ETA"` consume the value token and record it unless it is
`"Unknown"`. -/
def scanAtEta : List (List Char) → Option (List Char) → Option (List Char) →
    Option (List Char) × Option (List Char)
  | [], speed, eta => (speed, eta)
  | w :: rest, speed, eta =>
    if w = atKw then
      match rest with
      | [] => (speed, eta)
      | val :: rest2 =>
        if val = unknownKw then
          match rest2 with
          | [] => (speed, eta)
          | _ :: rest3 => scanAtEta rest3 speed eta
        else
          match rest2 with
          | [] => (some (replaceEta (val ++ [' '])), eta)
          | unit :: rest3 => scanAtEta rest3 (some (replaceEta (val ++ ' ' :: unit))) eta
    else if w = etaKw then
      match rest with
      | [] => (speed, eta)
      | val :: rest2 =>
        if val = unknownKw then scanAtEta rest2 speed eta
        else scanAtEta rest2 speed (some val)
    else scanAtEta rest speed eta

/-- Model of `parse_ytdlp_progress` (src/main.rs:649-696): `none` unless the
line starts with `"[download]"` and contains `'%'`; then the permille value
from the percentage token (failing when its whole part does not parse as
`u64`), and the speed/ETA extracted by the token scan. -/
def parse_ytdlp_progress (line : List Char) :
    Option (Nat × Option (List Char) × Option (List Char)) :=
  if ("[download]".toList <+: line) ∧ '%' ∈ line then
    match permilleOf line with
    | none => none
    | some permille => some (permille, scanAtEta (splitWs line) none none)
  else none

/-- One append to the recent-lines buffer
(`if dq.len() == 5 { dq.pop_front(); } dq.push_back(line)`). -/
def pushRecent (dq : List (List Char)) (line : List Char) : List (List Char) :=
  (if dq.length = 5 then dq.drop 1 else dq) ++ [line]

/-- One line handled by a tailer thread, as far as the shared buffer is
concerned: progress lines only drive the display, non-progress lines are
appended to the buffer. -/
def tailStep (buf : List (List Char)) (line : List Char) : List (List Char) :=
  match parse_ytdlp_progress line with
  | some _ => buf
  | none => pushRecent buf line

/-- The stderr tailer thread's return value, replayed on failure: the source
returns `Vec::<String>::new()` unconditionally ("no logs collected
currently"), whatever was read from the stream. -/
def errLogsReturned (_errLines : List (List Char)) : List (List Char) := []

/-- Observable outcome of one `run_ytdlp_with_progress` invocation. -/
structure RunResult where
  outcome : Except Nat Unit
  buffer : List (List Char)
  errSummary : List (List Char)

/-- Model of `run_ytdlp_with_progress` (src/main.rs:538-647) after both
tailers have been joined.  `arrival` is the merged arrival order of the
stdout and stderr lines at the shared buffer (both tailers run the same
buffer-update code, so any interleaving is one fold of `tailStep`);
`errLines` are the lines the stderr tailer read.  On non-zero exit the
lines of `err_handle.join()` are printed once and the status is reported. -/
def run_ytdlp_model (exitCode : Nat) (arrival errLines : List (List Char)) : RunResult :=
  { outcome := if exitCode = 0 then Except.ok () else Except.error exitCode
  , buffer := arrival.foldl tailStep []
  , errSummary := if exitCode = 0 then [] else errLogsReturned errLines }

/-- The at-most-`n` most recent elements of a list, oldest first. -/
def lastN (n : Nat) (xs : List α) : List α := xs.drop (xs.length - n)

/-- Join tokens, each followed by a single space (used to build test lines). -/
def midJoin : List (List Char) → List Char
  | [] => []
  | t :: ts => t ++ ' ' :: midJoin ts

/-- A well-formed progress line in the shape of claim C3:
marker, percentage `D.d%`, `of`, arbitrary middle tokens, then
`at SPEED UNIT ETA <eta>` with SPEED and UNIT separate tokens. -/
def c3Line (D : List Char) (d : Char) (mid : List (List Char))
    (sp un et : List Char) : List Char :=
  "[download]".toList ++ ' ' :: ' ' ::
    (D ++ '.' :: d :: '%' :: ' ' ::
      ("of".toList ++ ' ' ::
        (midJoin mid ++
          (atKw ++ ' ' ::
            (sp ++ ' ' :: (un ++ ' ' :: (etaKw ++ ' ' :: et)))))))

/-! ### Character facts -/

lemma notWs_of_digit {c : Char} (h : isDigitC c = true) : isWs c = false := by
  simp only [isDigitC, decide_eq_true_eq] at h
  simp only [isWs, decide_eq_false_iff_not]
  omega

lemma digit_ne_pct {c : Char} (h : isDigitC c = true) : c ≠ '%' :=
  fun he => absurd (he ▸ h) (by decide)

lemma digit_ne_dot {c : Char} (h : isDigitC c = true) : c ≠ '.' :=
  fun he => absurd (he ▸ h) (by decide)

lemma digit_ne_plus {c : Char} (h : isDigitC c = true) : c ≠ '+' :=
  fun he => absurd (he ▸ h) (by decide)

lemma digit_ne_lower_a {c : Char} (h : isDigitC c = true) : c ≠ 'a' :=
  fun he => absurd (he ▸ h) (by decide)

lemma digit_ne_upper_e {c : Char} (h : isDigitC c = true) : c ≠ 'E' :=
  fun he => absurd (he ▸ h) (by decide)

lemma ne_space_of_notWs {c : Char} (h : isWs c = false) : c ≠ ' ' :=
  fun he => absurd (he ▸ h) (by decide)

/-! ### `splitWs` computation lemmas -/

lemma splitWsAux_nonws (t : List Char) (h : ∀ c ∈ t, isWs c = false) :
    ∀ (rest acc : List Char), splitWsAux (t ++ rest) acc = splitWsAux rest (t.reverse ++ acc) := by
  induction t with
  | nil => intro rest acc; simp
  | cons c t ih =>
    intro rest acc
    have hc : isWs c = false := h c (List.mem_cons_self ..)
    simp only [List.cons_append, splitWsAux, hc, Bool.false_eq_true, if_false, List.append_eq]
    rw [ih (fun x hx => h x (List.mem_cons_of_mem _ hx)) rest (c :: acc)]
    simp

lemma splitWsAux_ws_nil {c : Char} (h : isWs c = true) (rest : List Char) :
    splitWsAux (c :: rest) [] = splitWsAux rest [] := by
  simp [splitWsAux, h]

lemma splitWsAux_ws_flush {c : Char} (h : isWs c = true) (rest acc : List Char) (ha : acc ≠ []) :
    splitWsAux (c :: rest) acc = acc.reverse :: splitWsAux rest [] := by
  simp [splitWsAux, h, ha]

lemma splitWsAux_nil_flush (acc : List Char) (ha : acc ≠ []) :
    splitWsAux [] acc = [acc.reverse] := by
  simp [splitWsAux, ha]

lemma splitWs_tok_space (t rest : List Char) (ht : t ≠ []) (h : ∀ c ∈ t, isWs c = false) :
    splitWsAux (t ++ ' ' :: rest) [] = t :: splitWsAux rest [] := by
  rw [splitWsAux_nonws t h, splitWsAux_ws_flush (by decide) rest _ (by simpa using ht)]
  simp

lemma splitWs_tok_end (t : List Char) (ht : t ≠ []) (h : ∀ c ∈ t, isWs c = false) :
    splitWsAux t [] = [t] := by
  have h2 := splitWsAux_nonws t h [] []
  rw [List.append_nil] at h2
  rw [h2, splitWsAux_nil_flush _ (by simpa using ht)]
  simp

lemma splitWsAux_midJoin (mid : List (List Char))
    (h : ∀ t ∈ mid, t ≠ [] ∧ ∀ c ∈ t, isWs c = false) (rest : List Char) :
    splitWsAux (midJoin mid ++ rest) [] = mid ++ splitWsAux rest [] := by
  induction mid with
  | nil => simp [midJoin]
  | cons t ts ih =>
    obtain ⟨ht, hts⟩ := h t (List.mem_cons_self ..)
    have hshape : midJoin (t :: ts) ++ rest = t ++ ' ' :: (midJoin ts ++ rest) := by
      simp [midJoin]
    rw [hshape, splitWs_tok_space t _ ht hts,
      ih (fun x hx => h x (List.mem_cons_of_mem _ hx))]
    simp

/-! ### `takeWhile` / `dropWhile` lemmas -/

lemma takeWhile_all_append (p : Char → Bool) (xs ys : List Char)
    (h : ∀ c ∈ xs, p c = true) :
    (xs ++ ys).takeWhile p = xs ++ ys.takeWhile p := by
  induction xs with
  | nil => simp
  | cons c t ih =>
    simp only [List.cons_append, List.takeWhile_cons, h c (List.mem_cons_self ..)]
    simp [ih (fun x hx => h x (List.mem_cons_of_mem _ hx))]

lemma takeWhile_cons_false (p : Char → Bool) (y : Char) (ys : List Char) (h : p y = false) :
    (y :: ys).takeWhile p = [] := by
  simp [List.takeWhile_cons, h]

lemma dropWhile_all_append (p : Char → Bool) (xs ys : List Char)
    (h : ∀ c ∈ xs, p c = true) :
    (xs ++ ys).dropWhile p = ys.dropWhile p := by
  induction xs with
  | nil => simp
  | cons c t ih =>
    simp only [List.cons_append, List.dropWhile_cons, h c (List.mem_cons_self ..)]
    simp [ih (fun x hx => h x (List.mem_cons_of_mem _ hx))]

lemma dropWhile_cons_false (p : Char → Bool) (y : Char) (ys : List Char) (h : p y = false) :
    (y :: ys).dropWhile p = y :: ys := by
  simp [List.dropWhile_cons, h]

/-! ### `parseU64` lemmas -/

lemma digitsVal_aux_lt (ds : List Char) (h : ∀ c ∈ ds, isDigitC c = true) :
    ∀ acc : Nat, ds.foldl (fun a c => a * 10 + digitVal c) acc < (acc + 1) * 10 ^ ds.length := by
  induction ds with
  | nil => intro acc; simp only [List.foldl_nil, List.length_nil, pow_zero, Nat.mul_one]; omega
  | cons c t ih =>
    intro acc
    have hc : digitVal c ≤ 9 := by
      have h9 := h c (List.mem_cons_self ..)
      simp only [isDigitC, decide_eq_true_eq] at h9
      simp only [digitVal]
      omega
    have step := ih (fun x hx => h x (List.mem_cons_of_mem _ hx)) (acc * 10 + digitVal c)
    calc List.foldl (fun a c => a * 10 + digitVal c) acc (c :: t)
        = List.foldl (fun a c => a * 10 + digitVal c) (acc * 10 + digitVal c) t := by
          simp [List.foldl_cons]
      _ < (acc * 10 + digitVal c + 1) * 10 ^ t.length := step
      _ ≤ ((acc + 1) * 10) * 10 ^ t.length := Nat.mul_le_mul (by omega) (Nat.le_refl _)
      _ = (acc + 1) * 10 ^ (c :: t).length := by
          simp [List.length_cons, pow_succ]
          ring

lemma digitsVal_lt_1000 (ds : List Char) (h : ∀ c ∈ ds, isDigitC c = true)
    (h3 : ds.length ≤ 3) : digitsVal ds < 1000 := by
  have hb := digitsVal_aux_lt ds h 0
  have hp : (10 : Nat) ^ ds.length ≤ 10 ^ 3 := Nat.pow_le_pow_right (by omega) h3
  have he : (10 : Nat) ^ 3 = 1000 := by norm_num
  simp only [digitsVal, Nat.zero_add, Nat.one_mul] at hb ⊢
  omega

lemma parseU64_digits (ds : List Char) (hne : ds ≠ []) (h : ∀ c ∈ ds, isDigitC c = true)
    (hlt : digitsVal ds < 18446744073709551616) :
    parseU64 ds = some (digitsVal ds) := by
  obtain ⟨c, t, rfl⟩ := List.exists_cons_of_ne_nil hne
  have hplus : stripPlus (c :: t) = c :: t := by
    simp only [stripPlus]
    rw [if_neg (digit_ne_plus (h c (List.mem_cons_self ..)))]
  have hall : (c :: t).all isDigitC = true := List.all_eq_true.mpr h
  simp only [parseU64, hplus, hall, if_true, hlt, if_pos]
  rw [if_neg (List.cons_ne_nil c t)]

/-! ### `replaceEta` lemmas -/

lemma replaceEta_cons_ne_space (c : Char) (t : List Char) (hc : c ≠ ' ') :
    replaceEta (c :: t) = c :: replaceEta t := by
  match t with
  | [] => rfl
  | [a] => rfl
  | [a, b] => rfl
  | a :: b :: e :: r =>
    simp only [replaceEta]
    rw [if_neg (fun hcon => hc hcon.1)]

lemma replaceEta_space_cons (t : List Char) (hpre : ¬ (etaKw <+: t)) :
    replaceEta (' ' :: t) = ' ' :: replaceEta t := by
  match t with
  | [] => rfl
  | [a] => rfl
  | [a, b] => rfl
  | a :: b :: e :: r =>
    simp only [replaceEta]
    rw [if_neg]
    intro hcon
    exact hpre ⟨r, by simp [etaKw, hcon.2.1, hcon.2.2.1, hcon.2.2.2]⟩

lemma replaceEta_no_space (xs : List Char) (h : ' ' ∉ xs) : replaceEta xs = xs := by
  induction xs with
  | nil => rfl
  | cons c t ih =>
    rw [replaceEta_cons_ne_space c t (fun he => h (he ▸ List.mem_cons_self ..))]
    rw [ih (fun hm => h (List.mem_cons_of_mem _ hm))]

lemma replaceEta_speed_unit (sp un : List Char) (hsp : ' ' ∉ sp) (hun : ' ' ∉ un)
    (hpre : ¬ (etaKw <+: un)) :
    replaceEta (sp ++ ' ' :: un) = sp ++ ' ' :: un := by
  induction sp with
  | nil =>
    simp only [List.nil_append]
    rw [replaceEta_space_cons un hpre, replaceEta_no_space un hun]
  | cons c t ih =>
    have hc : c ≠ ' ' := fun he => hsp (he ▸ List.mem_cons_self ..)
    simp only [List.cons_append]
    rw [replaceEta_cons_ne_space c _ hc, ih (fun hm => hsp (List.mem_cons_of_mem _ hm))]

/-! ### `scanAtEta` lemmas -/

lemma scanAtEta_nil (sp et : Option (List Char)) : scanAtEta [] sp et = (sp, et) := rfl

lemma scanAtEta_cons_skip (w : List Char) (rest : List (List Char))
    (sp et : Option (List Char)) (h1 : w ≠ atKw) (h2 : w ≠ etaKw) :
    scanAtEta (w :: rest) sp et = scanAtEta rest sp et := by
  rw [scanAtEta.eq_def]
  simp only [if_neg h1, if_neg h2]

lemma scanAtEta_skip_all (ts rest : List (List Char)) (sp et : Option (List Char))
    (h : ∀ t ∈ ts, t ≠ atKw ∧ t ≠ etaKw) :
    scanAtEta (ts ++ rest) sp et = scanAtEta rest sp et := by
  induction ts with
  | nil => simp
  | cons t ts ih =>
    obtain ⟨h1, h2⟩ := h t (List.mem_cons_self ..)
    rw [List.cons_append, scanAtEta_cons_skip t _ _ _ h1 h2,
      ih (fun x hx => h x (List.mem_cons_of_mem _ hx))]

lemma scanAtEta_single (w : List Char) (sp et : Option (List Char)) :
    scanAtEta [w] sp et = (sp, et) := by
  rw [scanAtEta.eq_def]
  by_cases h1 : w = atKw
  · simp [h1]
  · by_cases h2 : w = etaKw <;> simp [h1, h2, scanAtEta_nil]

lemma scanAtEta_at_speed (val unit : List Char) (rest : List (List Char))
    (sp et : Option (List Char)) (hval : val ≠ unknownKw) :
    scanAtEta (atKw :: val :: unit :: rest) sp et =
      scanAtEta rest (some (replaceEta (val ++ ' ' :: unit))) et := by
  rw [scanAtEta.eq_def]
  simp only [if_pos rfl, if_neg hval, if_true]

lemma scanAtEta_at_speed_end (val : List Char) (sp et : Option (List Char))
    (hval : val ≠ unknownKw) :
    scanAtEta [atKw, val] sp et = (some (replaceEta (val ++ [' '])), et) := by
  rw [scanAtEta.eq_def]
  simp only [if_pos rfl, if_neg hval, if_true]

lemma scanAtEta_at_unknown (u : List Char) (rest : List (List Char))
    (sp et : Option (List Char)) :
    scanAtEta (atKw :: unknownKw :: u :: rest) sp et = scanAtEta rest sp et := by
  rw [scanAtEta.eq_def]
  simp only [if_pos rfl, if_true]

lemma scanAtEta_at_unknown_end (sp et : Option (List Char)) :
    scanAtEta [atKw, unknownKw] sp et = (sp, et) := by
  rw [scanAtEta.eq_def]
  simp only [if_pos rfl, if_true]

lemma scanAtEta_eta_val (v : List Char) (rest : List (List Char))
    (sp et : Option (List Char)) (hv : v ≠ unknownKw) :
    scanAtEta (etaKw :: v :: rest) sp et = scanAtEta rest sp (some v) := by
  rw [scanAtEta.eq_def]
  simp only [if_neg (show ¬ (etaKw = atKw) by decide), if_pos rfl, if_neg hv, if_true]

lemma scanAtEta_eta_unknown (rest : List (List Char)) (sp et : Option (List Char)) :
    scanAtEta (etaKw :: unknownKw :: rest) sp et = scanAtEta rest sp et := by
  rw [scanAtEta.eq_def]
  simp only [if_neg (show ¬ (etaKw = atKw) by decide), if_pos rfl, if_true]

lemma scanAtEta_fst_no_at_aux :
    ∀ (n : Nat) (ts : List (List Char)), ts.length ≤ n →
      ∀ (sp et : Option (List Char)), (∀ t ∈ ts, t ≠ atKw) →
        (scanAtEta ts sp et).1 = sp := by
  intro n
  induction n with
  | zero =>
    intro ts hts sp et _
    rw [List.eq_nil_of_length_eq_zero (Nat.le_zero.mp hts), scanAtEta_nil]
  | succ n ih =>
    intro ts hts sp et h
    match ts with
    | [] => rfl
    | w :: rest =>
      have hw : w ≠ atKw := h w (List.mem_cons_self ..)
      by_cases hweta : w = etaKw
      · subst hweta
        match rest with
        | [] => rw [scanAtEta_single]
        | val :: rest2 =>
          have hlen : rest2.length ≤ n := by
            simp only [List.length_cons] at hts; omega
          have hmem : ∀ t ∈ rest2, t ≠ atKw :=
            fun t ht => h t (List.mem_cons_of_mem _ (List.mem_cons_of_mem _ ht))
          by_cases hvu : val = unknownKw
          · subst hvu
            rw [scanAtEta_eta_unknown]
            exact ih rest2 hlen sp et hmem
          · rw [scanAtEta_eta_val val rest2 sp et hvu]
            exact ih rest2 hlen sp (some val) hmem
      · rw [scanAtEta_cons_skip w rest sp et hw hweta]
        have hlen : rest.length ≤ n := by
          simp only [List.length_cons] at hts; omega
        exact ih rest hlen sp et (fun t ht => h t (List.mem_cons_of_mem _ ht))

lemma scanAtEta_fst_no_at (ts : List (List Char)) (sp et : Option (List Char))
    (h : ∀ t ∈ ts, t ≠ atKw) : (scanAtEta ts sp et).1 = sp :=
  scanAtEta_fst_no_at_aux ts.length ts (Nat.le_refl _) sp et h

lemma scanAtEta_snd_no_eta_aux :
    ∀ (n : Nat) (ts : List (List Char)), ts.length ≤ n →
      ∀ (sp et : Option (List Char)), (∀ t ∈ ts, t ≠ etaKw) →
        (scanAtEta ts sp et).2 = et := by
  intro n
  induction n with
  | zero =>
    intro ts hts sp et _
    rw [List.eq_nil_of_length_eq_zero (Nat.le_zero.mp hts), scanAtEta_nil]
  | succ n ih =>
    intro ts hts sp et h
    match ts with
    | [] => rfl
    | w :: rest =>
      have hw : w ≠ etaKw := h w (List.mem_cons_self ..)
      by_cases hwat : w = atKw
      · subst hwat
        match rest with
        | [] => rw [scanAtEta_single]
        | val :: rest2 =>
          by_cases hvu : val = unknownKw
          · subst hvu
            match rest2 with
            | [] => rw [scanAtEta_at_unknown_end]
            | u :: rest3 =>
              have hlen : rest3.length ≤ n := by
                simp only [List.length_cons] at hts; omega
              rw [scanAtEta_at_unknown]
              exact ih rest3 hlen sp et (fun t ht => h t
                (List.mem_cons_of_mem _ (List.mem_cons_of_mem _ (List.mem_cons_of_mem _ ht))))
          · match rest2 with
            | [] => rw [scanAtEta_at_speed_end val sp et hvu]
            | u :: rest3 =>
              have hlen : rest3.length ≤ n := by
                simp only [List.length_cons] at hts; omega
              rw [scanAtEta_at_speed val u rest3 sp et hvu]
              exact ih rest3 hlen _ et (fun t ht => h t
                (List.mem_cons_of_mem _ (List.mem_cons_of_mem _ (List.mem_cons_of_mem _ ht))))
      · rw [scanAtEta_cons_skip w rest sp et hwat hw]
        have hlen : rest.length ≤ n := by
          simp only [List.length_cons] at hts; omega
        exact ih rest hlen sp et (fun t ht => h t (List.mem_cons_of_mem _ ht))

lemma scanAtEta_snd_no_eta (ts : List (List Char)) (sp et : Option (List Char))
    (h : ∀ t ∈ ts, t ≠ etaKw) : (scanAtEta ts sp et).2 = et :=
  scanAtEta_snd_no_eta_aux ts.length ts (Nat.le_refl _) sp et h

lemma scanAtEta_snd_eta_unknown_aux :
    ∀ (n : Nat) (pre post : List (List Char)),
      (pre ++ etaKw :: unknownKw :: post).length ≤ n →
      ∀ (sp et : Option (List Char)),
        (∀ t ∈ pre, t ≠ etaKw) → (∀ t ∈ post, t ≠ etaKw) →
        (scanAtEta (pre ++ etaKw :: unknownKw :: post) sp et).2 = et := by
  intro n
  induction n with
  | zero =>
    intro pre post hlen
    exfalso
    simp only [List.length_append, List.length_cons] at hlen
    omega
  | succ n ih =>
    intro pre post hlen sp et hpre hpost
    match pre with
    | [] =>
      rw [List.nil_append, scanAtEta_eta_unknown]
      exact scanAtEta_snd_no_eta post sp et hpost
    | w :: pre1 =>
      rw [List.cons_append]
      by_cases hwat : w = atKw
      · subst hwat
        match pre1 with
        | [] =>
          rw [List.nil_append,
            scanAtEta_at_speed etaKw unknownKw post sp et (by decide)]
          exact scanAtEta_snd_no_eta post _ et hpost
        | v :: pre2 =>
          rw [List.cons_append]
          have hunk_post : ∀ t ∈ unknownKw :: post, t ≠ etaKw := by
            intro t ht
            rcases List.mem_cons.mp ht with rfl | ht2
            · decide
            · exact hpost t ht2
          by_cases hvu : v = unknownKw
          · subst hvu
            match pre2 with
            | [] =>
              rw [List.nil_append, scanAtEta_at_unknown etaKw (unknownKw :: post) sp et]
              exact scanAtEta_snd_no_eta (unknownKw :: post) sp et hunk_post
            | u :: pre3 =>
              rw [List.cons_append,
                scanAtEta_at_unknown u (pre3 ++ etaKw :: unknownKw :: post) sp et]
              refine ih pre3 post ?_ sp et ?_ hpost
              · simp only [List.length_append, List.length_cons] at hlen ⊢
                omega
              · exact fun t ht => hpre t (List.mem_cons_of_mem _
                  (List.mem_cons_of_mem _ (List.mem_cons_of_mem _ ht)))
          · match pre2 with
            | [] =>
              rw [List.nil_append,
                scanAtEta_at_speed v etaKw (unknownKw :: post) sp et hvu]
              exact scanAtEta_snd_no_eta (unknownKw :: post) _ et hunk_post
            | u :: pre3 =>
              rw [List.cons_append,
                scanAtEta_at_speed v u (pre3 ++ etaKw :: unknownKw :: post) sp et hvu]
              refine ih pre3 post ?_ _ et ?_ hpost
              · simp only [List.length_append, List.length_cons] at hlen ⊢
                omega
              · exact fun t ht => hpre t (List.mem_cons_of_mem _
                  (List.mem_cons_of_mem _ (List.mem_cons_of_mem _ ht)))
      · have hweta : w ≠ etaKw := hpre w (List.mem_cons_self ..)
        rw [scanAtEta_cons_skip w _ sp et hwat hweta]
        refine ih pre1 post ?_ sp et (fun t ht => hpre t (List.mem_cons_of_mem _ ht)) hpost
        simp only [List.length_append, List.length_cons] at hlen ⊢
        omega

/-- Whatever the scanner does with the tokens around it (including an `at`
clause that swallows the `ETA` keyword as its value or unit token), a line
whose only `ETA` token is followed by `Unknown` leaves eta unchanged. -/
lemma scanAtEta_snd_eta_unknown (pre post : List (List Char)) (sp et : Option (List Char))
    (hpre : ∀ t ∈ pre, t ≠ etaKw) (hpost : ∀ t ∈ post, t ≠ etaKw) :
    (scanAtEta (pre ++ etaKw :: unknownKw :: post) sp et).2 = et :=
  scanAtEta_snd_eta_unknown_aux (pre ++ etaKw :: unknownKw :: post).length pre post
    (Nat.le_refl _) sp et hpre hpost

/-! ### Recent-lines buffer lemmas -/

lemma pushRecent_length_le (dq : List (List Char)) (l : List Char) (h : dq.length ≤ 5) :
    (pushRecent dq l).length ≤ 5 := by
  unfold pushRecent
  by_cases h5 : dq.length = 5
  · simp [h5, List.length_append, List.length_drop]
  · simp only [h5, if_false, List.length_append, List.length_singleton]
    omega

lemma lastN_of_le {α : Type} (n : Nat) (xs : List α) (h : xs.length ≤ n) :
    lastN n xs = xs := by
  unfold lastN
  rw [Nat.sub_eq_zero_of_le h, List.drop_zero]

lemma pushRecent_lastN (L : List (List Char)) (x : List Char) :
    pushRecent (lastN 5 L) x = lastN 5 (L ++ [x]) := by
  by_cases h : L.length ≤ 4
  · rw [lastN_of_le 5 L (by omega), lastN_of_le 5 (L ++ [x]) (by simp; omega)]
    unfold pushRecent
    rw [if_neg (by omega)]
  · have h5 : 5 ≤ L.length := by omega
    have hlen : (lastN 5 L).length = 5 := by
      unfold lastN
      rw [List.length_drop]
      omega
    unfold pushRecent
    rw [if_pos hlen]
    unfold lastN
    rw [List.drop_drop, List.length_append, List.length_singleton,
      List.drop_append_of_le_length (by omega)]
    have harith : L.length - 5 + 1 = L.length + 1 - 5 := by omega
    rw [harith]

lemma foldl_pushRecent_lastN (xs : List (List Char)) :
    xs.foldl pushRecent [] = lastN 5 xs := by
  induction xs using List.reverseRecOn with
  | nil => rfl
  | append_singleton ys y ih =>
    rw [List.foldl_append, ih, List.foldl_cons, List.foldl_nil, pushRecent_lastN]

lemma foldl_tailStep_filter (lines : List (List Char)) :
    ∀ buf, lines.foldl tailStep buf =
      (lines.filter (fun l => (parse_ytdlp_progress l).isNone)).foldl pushRecent buf := by
  induction lines with
  | nil => intro buf; rfl
  | cons l ls ih =>
    intro buf
    cases hp : parse_ytdlp_progress l with
    | none => simp [List.foldl_cons, List.filter_cons, tailStep, hp, ih]
    | some r => simp [List.foldl_cons, List.filter_cons, tailStep, hp, ih]

/-! ### Parser decomposition lemmas -/

lemma parse_components {line : List Char} {p : Nat} {sp et : Option (List Char)}
    (h : parse_ytdlp_progress line = some (p, sp, et)) :
    permilleOf line = some p ∧ sp = (scanAtEta (splitWs line) none none).1 ∧
      et = (scanAtEta (splitWs line) none none).2 := by
  unfold parse_ytdlp_progress at h
  by_cases hc : ("[download]".toList <+: line) ∧ '%' ∈ line
  · rw [if_pos hc] at h
    cases hperm : permilleOf line with
    | none => rw [hperm] at h; exact absurd h (by simp)
    | some q =>
      rw [hperm] at h
      rw [Option.some.injEq] at h
      obtain ⟨hq, hpair⟩ := Prod.mk.injEq .. ▸ h
      subst hq
      refine ⟨rfl, ?_, ?_⟩
      · rw [hpair]
      · rw [hpair]
  · rw [if_neg hc] at h
    exact absurd h (by simp)

lemma parse_eq_of (line : List Char) (hc : ("[download]".toList <+: line) ∧ '%' ∈ line)
    (p : Nat) (hp : permilleOf line = some p) :
    parse_ytdlp_progress line = some (p, scanAtEta (splitWs line) none none) := by
  unfold parse_ytdlp_progress
  rw [if_pos hc, hp]

/-! ### Evaluation of the parser on well-formed lines (claim C3 machinery) -/

lemma splitWs_marker (rest : List Char) :
    splitWsAux ("[download]".toList ++ ' ' :: ' ' :: rest) [] =
      "[download]".toList :: splitWsAux rest [] := by
  rw [splitWsAux_nonws _ (by decide) _ [], List.append_nil,
    splitWsAux_ws_flush (by decide) _ _ (by decide),
    splitWsAux_ws_nil (by decide)]
  simp

lemma c3_percent_token (D : List Char) (d : Char) (tail0 : List Char)
    (hDdig : ∀ c ∈ D, isDigitC c = true) (hd : isDigitC d = true) :
    percentToken ("[download]".toList ++ ' ' :: ' ' :: (D ++ '.' :: d :: '%' :: tail0)) =
      some (D ++ ['.', d]) := by
  have hshape : "[download]".toList ++ ' ' :: ' ' :: (D ++ '.' :: d :: '%' :: tail0) =
      ("[download]".toList ++ ' ' :: ' ' :: (D ++ ['.', d])) ++ '%' :: tail0 := by
    simp
  have hall : ∀ c ∈ "[download]".toList ++ ' ' :: ' ' :: (D ++ ['.', d]),
      (fun c => decide (c ≠ '%')) c = true := by
    have hmark : ∀ x ∈ "[download]".toList, x ≠ '%' := by decide
    intro c hc
    rcases List.mem_append.mp hc with h | h
    · exact decide_eq_true (hmark c h)
    · rcases List.mem_cons.mp h with rfl | h
      · decide
      · rcases List.mem_cons.mp h with rfl | h
        · decide
        · rcases List.mem_append.mp h with h | h
          · exact decide_eq_true (digit_ne_pct (hDdig c h))
          · rcases List.mem_cons.mp h with rfl | h
            · decide
            · rcases List.mem_cons.mp h with rfl | h
              · exact decide_eq_true (digit_ne_pct hd)
              · exact absurd h (List.not_mem_nil c)
  unfold percentToken
  rw [hshape, takeWhile_all_append _ _ _ hall,
    takeWhile_cons_false _ '%' _ (by simp), List.append_nil]
  unfold splitWs
  rw [splitWs_marker, splitWs_tok_end (D ++ ['.', d]) (by simp) ?nonws]
  case nonws =>
    intro c hc
    rcases List.mem_append.mp hc with h | h
    · exact notWs_of_digit (hDdig c h)
    · rcases List.mem_cons.mp h with rfl | h
      · decide
      · rcases List.mem_cons.mp h with rfl | h
        · exact notWs_of_digit hd
        · exact absurd h (List.not_mem_nil c)
  simp [List.getLast?]

lemma fracDigit_of (D : List Char) (d : Char)
    (hD : ∀ c ∈ D, isDigitC c = true) (hd : isDigitC d = true) :
    fracDigit (D ++ ['.', d]) = digitVal d := by
  have hdrop : (D ++ ['.', d]).dropWhile (fun c => decide (c ≠ '.')) = '.' :: [d] := by
    rw [show (['.', d] : List Char) = '.' :: [d] from rfl,
      dropWhile_all_append _ D _ (fun c hc => decide_eq_true (digit_ne_dot (hD c hc)))]
    exact dropWhile_cons_false _ '.' [d] (by simp)
  have hsds : splitDotSecond (D ++ ['.', d]) = some [d] := by
    unfold splitDotSecond
    rw [hdrop]
    simp [List.takeWhile_cons, digit_ne_dot hd]
  unfold fracDigit
  rw [hsds]
  simp [hd]

lemma c3_permille (D : List Char) (d : Char) (tail0 : List Char)
    (hDne : D ≠ []) (hDlen : D.length ≤ 3)
    (hDdig : ∀ c ∈ D, isDigitC c = true) (hd : isDigitC d = true) :
    permilleOf ("[download]".toList ++ ' ' :: ' ' :: (D ++ '.' :: d :: '%' :: tail0)) =
      some (min (digitsVal D * 10 + digitVal d) 1000) := by
  have h1 : splitDotFirst (D ++ ['.', d]) = D := by
    unfold splitDotFirst
    rw [show (['.', d] : List Char) = '.' :: [d] from rfl,
      takeWhile_all_append _ D _ (fun c hc => decide_eq_true (digit_ne_dot (hDdig c hc))),
      takeWhile_cons_false _ '.' _ (by simp), List.append_nil]
  simp only [permilleOf, c3_percent_token D d tail0 hDdig hd, h1,
    parseU64_digits D hDne hDdig (lt_trans (digitsVal_lt_1000 D hDdig hDlen) (by norm_num)),
    fracDigit_of D d hDdig hd]

lemma digits_append_ne_at (D rest : List Char) (hDne : D ≠ [])
    (hdig : ∀ c ∈ D, isDigitC c = true) : D ++ rest ≠ atKw := by
  obtain ⟨a, D', rfl⟩ := List.exists_cons_of_ne_nil hDne
  intro he
  rw [List.cons_append, show atKw = 'a' :: ['t'] from rfl] at he
  injection he with h1 _
  exact absurd (h1 ▸ hdig a (List.mem_cons_self ..)) (by decide)

lemma digits_append_ne_eta (D rest : List Char) (hDne : D ≠ [])
    (hdig : ∀ c ∈ D, isDigitC c = true) : D ++ rest ≠ etaKw := by
  obtain ⟨a, D', rfl⟩ := List.exists_cons_of_ne_nil hDne
  intro he
  rw [List.cons_append, show etaKw = 'E' :: ['T', 'A'] from rfl] at he
  injection he with h1 _
  exact absurd (h1 ▸ hdig a (List.mem_cons_self ..)) (by decide)

lemma c3_splitWs (D : List Char) (d : Char) (mid : List (List Char)) (SPEED UNIT ET : List Char)
    (hDall : ∀ c ∈ D, isWs c = false) (hdw : isWs d = false)
    (hmid : ∀ t ∈ mid, t ≠ [] ∧ ∀ c ∈ t, isWs c = false)
    (hSPne : SPEED ≠ []) (hSPws : ∀ c ∈ SPEED, isWs c = false)
    (hUNne : UNIT ≠ []) (hUNws : ∀ c ∈ UNIT, isWs c = false)
    (hETne : ET ≠ []) (hETws : ∀ c ∈ ET, isWs c = false) :
    splitWs (c3Line D d mid SPEED UNIT ET) =
      "[download]".toList :: (D ++ ['.', d, '%']) :: "of".toList ::
        (mid ++ atKw :: SPEED :: UNIT :: etaKw :: [ET]) := by
  have hptok : ∀ c ∈ D ++ ['.', d, '%'], isWs c = false := by
    intro c hc
    rcases List.mem_append.mp hc with h | h
    · exact hDall c h
    · rcases List.mem_cons.mp h with rfl | h
      · decide
      · rcases List.mem_cons.mp h with rfl | h
        · exact hdw
        · rcases List.mem_cons.mp h with rfl | h
          · decide
          · exact absurd h (List.not_mem_nil c)
  unfold splitWs c3Line
  rw [splitWs_marker,
    show D ++ '.' :: d :: '%' :: ' ' ::
        ("of".toList ++ ' ' :: (midJoin mid ++ (atKw ++ ' ' ::
          (SPEED ++ ' ' :: (UNIT ++ ' ' :: (etaKw ++ ' ' :: ET)))))) =
      (D ++ ['.', d, '%']) ++ ' ' ::
        ("of".toList ++ ' ' :: (midJoin mid ++ (atKw ++ ' ' ::
          (SPEED ++ ' ' :: (UNIT ++ ' ' :: (etaKw ++ ' ' :: ET)))))) by simp,
    splitWs_tok_space _ _ (by simp) hptok,
    splitWs_tok_space _ _ (by decide) (by decide),
    splitWsAux_midJoin mid hmid,
    splitWs_tok_space _ _ (by decide) (by decide),
    splitWs_tok_space _ _ hSPne hSPws,
    splitWs_tok_space _ _ hUNne hUNws,
    splitWs_tok_space _ _ (by decide) (by decide),
    splitWs_tok_end _ hETne hETws]

lemma c3_scan (D : List Char) (d : Char) (mid : List (List Char)) (SPEED UNIT ET : List Char)
    (hDne : D ≠ []) (hDdig : ∀ c ∈ D, isDigitC c = true)
    (hmidkw : ∀ t ∈ mid, t ≠ atKw ∧ t ≠ etaKw)
    (hSPws : ∀ c ∈ SPEED, isWs c = false) (hSPunk : SPEED ≠ unknownKw)
    (hUNws : ∀ c ∈ UNIT, isWs c = false) (hUNeta : ¬ (etaKw <+: UNIT))
    (hETunk : ET ≠ unknownKw) :
    scanAtEta ("[download]".toList :: (D ++ ['.', d, '%']) :: "of".toList ::
        (mid ++ atKw :: SPEED :: UNIT :: etaKw :: [ET])) none none =
      (some (SPEED ++ ' ' :: UNIT), some ET) := by
  rw [scanAtEta_cons_skip _ _ _ _ (by decide) (by decide),
    scanAtEta_cons_skip _ _ _ _ (digits_append_ne_at D _ hDne hDdig)
      (digits_append_ne_eta D _ hDne hDdig),
    scanAtEta_cons_skip _ _ _ _ (by decide) (by decide),
    scanAtEta_skip_all mid _ _ _ hmidkw,
    scanAtEta_at_speed SPEED UNIT _ _ _ hSPunk,
    scanAtEta_eta_val ET [] _ _ hETunk,
    scanAtEta_nil,
    replaceEta_speed_unit SPEED UNIT
      (fun hm => absurd (hSPws ' ' hm) (by decide))
      (fun hm => absurd (hUNws ' ' hm) (by decide)) hUNeta]

/-!  ## Claim theorems -/

/-- Claim C1 (counterexample): on the spec's sample line
`"[download]  81.6% of   59.10MiB at    3.47MiB/s ETA 00:01"` the parser
does not return the claimed reading with eta `"00:01"`: the `ETA` keyword
is consumed as the speed value's unit token, so the scan never sees it. -/
theorem parse_sample_line_ne_claimed :
    parse_ytdlp_progress
        "[download]  81.6% of   59.10MiB at    3.47MiB/s ETA 00:01".toList ≠
      some (816, some "3.47MiB/s".toList, some "00:01".toList) := by decide

/-- Claim C1 (amended): the sample line parses to permille 816 and speed
`"3.47MiB/s"`, but eta `none`. -/
theorem parse_sample_line :
    parse_ytdlp_progress
        "[download]  81.6% of   59.10MiB at    3.47MiB/s ETA 00:01".toList =
      some (816, some "3.47MiB/s".toList, none) := by decide

/-- Claim C3: for every well-formed line
`"[download]  D.d% of <mid tokens> at SPEED UNIT ETA <eta>"` with SPEED
and UNIT separate whitespace-delimited tokens — `D` one to three digits,
`d` a digit, the middle tokens ordinary non-keyword words, SPEED neither
empty nor `Unknown`, UNIT not starting with `ETA`, the ETA token not
`Unknown`, and the percentage a genuine one (at most 100.0%) —
`parse_ytdlp_progress` returns permille exactly `D*10+d`, speed
`"SPEED UNIT"` and eta the ETA token. -/
theorem parse_wellformed_line (D : List Char) (d : Char) (mid : List (List Char))
    (SPEED UNIT ET : List Char)
    (hDne : D ≠ []) (hDlen : D.length ≤ 3) (hDdig : ∀ c ∈ D, isDigitC c = true)
    (hd : isDigitC d = true)
    (hmid : ∀ t ∈ mid, t ≠ [] ∧ (∀ c ∈ t, isWs c = false) ∧ t ≠ atKw ∧ t ≠ etaKw)
    (hSPne : SPEED ≠ []) (hSPws : ∀ c ∈ SPEED, isWs c = false) (hSPunk : SPEED ≠ unknownKw)
    (hUNne : UNIT ≠ []) (hUNws : ∀ c ∈ UNIT, isWs c = false) (hUNeta : ¬ (etaKw <+: UNIT))
    (hETne : ET ≠ []) (hETws : ∀ c ∈ ET, isWs c = false) (hETunk : ET ≠ unknownKw)
    (hperm : digitsVal D * 10 + digitVal d ≤ 1000) :
    parse_ytdlp_progress (c3Line D d mid SPEED UNIT ET) =
      some (digitsVal D * 10 + digitVal d, some (SPEED ++ ' ' :: UNIT), some ET) := by
  have hc : ("[download]".toList <+: c3Line D d mid SPEED UNIT ET) ∧
      '%' ∈ c3Line D d mid SPEED UNIT ET := by
    constructor
    · unfold c3Line
      exact List.prefix_append _ _
    · unfold c3Line
      simp
  have hpm : permilleOf (c3Line D d mid SPEED UNIT ET) =
      some (digitsVal D * 10 + digitVal d) := by
    unfold c3Line
    rw [c3_permille D d _ hDne hDlen hDdig hd, Nat.min_eq_left hperm]
  have hsw := c3_splitWs D d mid SPEED UNIT ET
    (fun c hcm => notWs_of_digit (hDdig c hcm)) (notWs_of_digit hd)
    (fun t ht => ⟨(hmid t ht).1, (hmid t ht).2.1⟩)
    hSPne hSPws hUNne hUNws hETne hETws
  rw [parse_eq_of _ hc _ hpm, hsw,
    c3_scan D d mid SPEED UNIT ET hDne hDdig
      (fun t ht => ⟨(hmid t ht).2.2.1, (hmid t ht).2.2.2⟩) hSPws hSPunk hUNws hUNeta hETunk]

/-- Witness for C3 at the concrete well-formed line
`"[download]  81.6% of 59.10MiB at 3.47 MiB/s ETA 00:01"`. -/
theorem parse_wellformed_line_witness :
    parse_ytdlp_progress
        "[download]  81.6% of 59.10MiB at 3.47 MiB/s ETA 00:01".toList =
      some (816, some "3.47 MiB/s".toList, some "00:01".toList) := by
  have h := parse_wellformed_line "81".toList '6' ["59.10MiB".toList]
    "3.47".toList "MiB/s".toList "00:01".toList
    (by decide) (by decide) (by decide) (by decide) (by decide)
    (by decide) (by decide) (by decide) (by decide) (by decide) (by decide)
    (by decide) (by decide) (by decide) (by decide)
  rw [show c3Line "81".toList '6' ["59.10MiB".toList] "3.47".toList "MiB/s".toList
        "00:01".toList =
      "[download]  81.6% of 59.10MiB at 3.47 MiB/s ETA 00:01".toList by decide,
    show digitsVal "81".toList * 10 + digitVal '6' = 816 by decide] at h
  exact h

/-- Claim C6: on every recognized progress line whose percentage token has
a numeric whole part `W`, the parsed permille is
`min (W*10 + fracDigit) 1000` — clamped to `[0, 1000]`, and equal to 1000
whenever the percentage exceeds 100.0%. -/
theorem permille_clamped (line tok : List Char) (W p : Nat)
    (sp et : Option (List Char))
    (hrec : parse_ytdlp_progress line = some (p, sp, et))
    (htok : percentToken line = some tok)
    (hW : parseU64 (splitDotFirst tok) = some W) :
    p = min (W * 10 + fracDigit tok) 1000 ∧ p ≤ 1000 ∧
      (1000 < W * 10 + fracDigit tok → p = 1000) := by
  obtain ⟨hperm, _, _⟩ := parse_components hrec
  simp only [permilleOf, htok, hW, Option.some.injEq] at hperm
  refine ⟨hperm.symm, ?_, ?_⟩
  · rw [hperm.symm]
    exact Nat.min_le_right _ _
  · intro hgt
    rw [hperm.symm]
    exact Nat.min_eq_right (Nat.le_of_lt hgt)

/-- Witness for C6 at the malformed over-100% line
`"[download] 150.5% of y"`, which clamps to permille 1000. -/
theorem permille_clamped_witness :
    (1000 : Nat) = min (150 * 10 + fracDigit "150.5".toList) 1000 ∧ (1000 : Nat) ≤ 1000 ∧
      (1000 < 150 * 10 + fracDigit "150.5".toList → (1000 : Nat) = 1000) :=
  permille_clamped "[download] 150.5% of y".toList "150.5".toList 150 1000 none none
    (by decide) (by decide) (by decide)

/-- Claim C7: a line that lacks the `"[download]"` marker, or contains no
`'%'`, or whose percentage token has a non-numeric whole part, parses to
`none`; the parser is a total function, so no line ever raises an error. -/
theorem parse_defensive_none (line : List Char)
    (h : ¬ ("[download]".toList <+: line) ∨ '%' ∉ line ∨
      (∃ tok, percentToken line = some tok ∧ parseU64 (splitDotFirst tok) = none)) :
    parse_ytdlp_progress line = none := by
  unfold parse_ytdlp_progress
  by_cases hc : ("[download]".toList <+: line) ∧ '%' ∈ line
  · rw [if_pos hc]
    rcases h with h | h | ⟨tok, h1, h2⟩
    · exact absurd hc.1 h
    · exact absurd hc.2 h
    · simp only [permilleOf, h1, h2]
  · rw [if_neg hc]

/-- Witness for C7 at the markerless line `"hello"`. -/
theorem parse_defensive_none_witness :
    parse_ytdlp_progress "hello".toList = none :=
  parse_defensive_none "hello".toList (Or.inl (by decide))

/-- Claim C8: on a recognized progress line, an `Unknown` token after the
(sole) `at` keyword leaves the parsed speed `none` (the `Unknown` and its
trailing unit token are discarded), and an `Unknown` token after the
(sole) `ETA` token leaves the parsed eta `none` — the latter whatever else
the line contains before the `ETA`, including a full `at`-clause. -/
theorem unknown_speed_eta_none :
    (∀ (line : List Char) (p : Nat) (sp et : Option (List Char))
        (pre : List (List Char)) (u : List Char) (post : List (List Char)),
      parse_ytdlp_progress line = some (p, sp, et) →
      splitWs line = pre ++ atKw :: unknownKw :: u :: post →
      (∀ t ∈ pre, t ≠ atKw ∧ t ≠ etaKw) →
      (∀ t ∈ post, t ≠ atKw) →
      parse_ytdlp_progress line = some (p, none, et)) ∧
    (∀ (line : List Char) (p : Nat) (sp et : Option (List Char))
        (pre post : List (List Char)),
      parse_ytdlp_progress line = some (p, sp, et) →
      splitWs line = pre ++ etaKw :: unknownKw :: post →
      (∀ t ∈ pre, t ≠ etaKw) →
      (∀ t ∈ post, t ≠ etaKw) →
      parse_ytdlp_progress line = some (p, sp, none)) := by
  constructor
  · intro line p sp et pre u post hrec hsplit hpre hpost
    obtain ⟨_, hsp, _⟩ := parse_components hrec
    rw [hsplit, scanAtEta_skip_all pre _ _ _ hpre, scanAtEta_at_unknown,
      scanAtEta_fst_no_at post _ _ hpost] at hsp
    rw [hsp] at hrec
    exact hrec
  · intro line p sp et pre post hrec hsplit hpre hpost
    obtain ⟨_, _, het⟩ := parse_components hrec
    rw [hsplit, scanAtEta_snd_eta_unknown pre post _ _ hpre hpost] at het
    rw [het] at hrec
    exact hrec

/-- Witness for C8: an `Unknown` speed on
`"[download] 50.0% of 10MiB at Unknown B/s ETA 00:10"` and an `Unknown`
ETA on the typical combined line
`"[download] 50.0% of 10MiB at Unknown B/s ETA Unknown"` (whose `at`
clause sits before the `ETA` token). -/
theorem unknown_speed_eta_none_witness :
    parse_ytdlp_progress "[download] 50.0% of 10MiB at Unknown B/s ETA 00:10".toList =
      some (500, none, some "00:10".toList) ∧
    parse_ytdlp_progress "[download] 50.0% of 10MiB at Unknown B/s ETA Unknown".toList =
      some (500, none, none) := by
  constructor
  · exact unknown_speed_eta_none.1 _ 500 none (some "00:10".toList)
      ["[download]".toList, "50.0%".toList, "of".toList, "10MiB".toList]
      "B/s".toList [etaKw, "00:10".toList]
      (by decide) (by decide) (by decide) (by decide)
  · exact unknown_speed_eta_none.2 _ 500 none none
      ["[download]".toList, "50.0%".toList, "of".toList, "10MiB".toList, atKw, unknownKw,
        "B/s".toList] []
      (by decide) (by decide) (by decide) (by decide)

/-- Claim C10: when the value after `at` is `Unknown`, the scan consumes
the following token as the discarded unit even when that token is the
`ETA` keyword itself; a line whose tokens end `... at Unknown ETA <v>`
therefore parses with eta `none` (and speed `none`), although an ETA value
is present. -/
theorem at_unknown_swallows_eta (line : List Char) (p : Nat)
    (sp et : Option (List Char)) (pre : List (List Char)) (v : List Char)
    (hrec : parse_ytdlp_progress line = some (p, sp, et))
    (hsplit : splitWs line = pre ++ [atKw, unknownKw, etaKw, v])
    (hpre : ∀ t ∈ pre, t ≠ atKw ∧ t ≠ etaKw)
    (hv : v ≠ atKw ∧ v ≠ etaKw) :
    parse_ytdlp_progress line = some (p, none, none) := by
  obtain ⟨_, hsp, het⟩ := parse_components hrec
  rw [hsplit, show pre ++ [atKw, unknownKw, etaKw, v] =
      pre ++ atKw :: unknownKw :: etaKw :: [v] from rfl,
    scanAtEta_skip_all pre _ _ _ hpre, scanAtEta_at_unknown,
    scanAtEta_cons_skip v [] _ _ hv.1 hv.2, scanAtEta_nil] at hsp het
  rw [hsp, het] at hrec
  exact hrec

/-- Witness for C10 at `"[download] 12.3% of x at Unknown ETA 00:05"`:
eta comes back `none` although `ETA 00:05` is present on the line. -/
theorem at_unknown_swallows_eta_witness :
    parse_ytdlp_progress "[download] 12.3% of x at Unknown ETA 00:05".toList =
      some (123, none, none) :=
  at_unknown_swallows_eta _ 123 none none
    ["[download]".toList, "12.3%".toList, "of".toList, "x".toList] "00:05".toList
    (by decide) (by decide) (by decide) (by decide)

/-- Claim C4: the recent-lines buffer never exceeds capacity 5 — a single
append preserves the bound (evicting the oldest entry when full), every
sequence of tailer steps preserves it, and seven consecutive inserts leave
exactly the last five, oldest first. -/
theorem recent_lines_capacity :
    (∀ (dq : List (List Char)) (l : List Char), dq.length ≤ 5 →
      (pushRecent dq l).length ≤ 5) ∧
    (∀ (buf : List (List Char)) (lines : List (List Char)), buf.length ≤ 5 →
      (lines.foldl tailStep buf).length ≤ 5) ∧
    (∀ a b c d e f g : List Char,
      List.foldl pushRecent [] [a, b, c, d, e, f, g] = [c, d, e, f, g]) := by
  refine ⟨pushRecent_length_le, ?_, ?_⟩
  · intro buf lines
    induction lines generalizing buf with
    | nil => intro h; exact h
    | cons l ls ih =>
      intro h
      rw [List.foldl_cons]
      refine ih (tailStep buf l) ?_
      unfold tailStep
      cases hp : parse_ytdlp_progress l with
      | none => exact pushRecent_length_le buf l h
      | some r => exact h
  · intro a b c d e f g
    simp [pushRecent, List.foldl_cons]

/-- Witness for C4 with concrete buffers. -/
theorem recent_lines_capacity_witness :
    (pushRecent [['q']] ['x']).length ≤ 5 ∧
    (([['y'], ['z']] : List (List Char)).foldl tailStep []).length ≤ 5 ∧
    List.foldl pushRecent [] [['1'], ['2'], ['3'], ['4'], ['5'], ['6'], ['7']] =
      [['3'], ['4'], ['5'], ['6'], ['7']] :=
  ⟨recent_lines_capacity.1 [['q']] ['x'] (by decide),
   recent_lines_capacity.2.1 [] [['y'], ['z']] (by decide),
   recent_lines_capacity.2.2 ['1'] ['2'] ['3'] ['4'] ['5'] ['6'] ['7']⟩

/-- Claim C5: a run whose child exits 0 after writing its lines to stdout
(stderr silent) reports success, and the shared buffer ends as the last
five (at most) lines whose parse is `none`; a line enters the buffer
exactly when `parse_ytdlp_progress` yields `none`, so progress lines never
enter it. -/
theorem success_run_buffer (outLines : List (List Char)) :
    (run_ytdlp_model 0 outLines []).outcome = Except.ok () ∧
    (run_ytdlp_model 0 outLines []).buffer =
      lastN 5 (outLines.filter (fun l => (parse_ytdlp_progress l).isNone)) ∧
    (∀ (buf : List (List Char)) (l : List Char),
      tailStep buf l =
        if (parse_ytdlp_progress l).isNone then pushRecent buf l else buf) := by
  refine ⟨rfl, ?_, ?_⟩
  · show outLines.foldl tailStep [] = _
    rw [foldl_tailStep_filter outLines [], foldl_pushRecent_lastN]
  · intro buf l
    unfold tailStep
    cases hp : parse_ytdlp_progress l with
    | none => simp
    | some r => simp

/-- Claim C2 (counterexample): on a failing run the buffered recent line is
not part of the surfaced error summary — the summary printed by the failure
path is always empty. -/
theorem failure_summary_counterexample :
    "error: boom".toList ∈
      (run_ytdlp_model 1 ["error: boom".toList] ["error: boom".toList]).buffer ∧
    "error: boom".toList ∉
      (run_ytdlp_model 1 ["error: boom".toList] ["error: boom".toList]).errSummary := by
  constructor
  · decide
  · decide

/-- Claim C2 (amended): on non-zero exit the runner reports a failure
carrying exactly the child's status; the error summary is surfaced once
but contains no lines at all (the stderr tailer's replay list is always
empty), so the buffered recent log lines are not included. -/
theorem failure_status_and_summary (exitCode : Nat) (arrival errLines : List (List Char))
    (h : exitCode ≠ 0) :
    (run_ytdlp_model exitCode arrival errLines).outcome = Except.error exitCode ∧
    (run_ytdlp_model exitCode arrival errLines).errSummary = [] := by
  constructor
  · show (if exitCode = 0 then Except.ok () else Except.error exitCode) = _
    rw [if_neg h]
  · show (if exitCode = 0 then [] else errLogsReturned errLines) = _
    rw [if_neg h]
    rfl

/-- Witness for the amended C2 at exit code 2. -/
theorem failure_status_and_summary_witness :
    (run_ytdlp_model 2 [] []).outcome = Except.error 2 ∧
    (run_ytdlp_model 2 [] []).errSummary = [] :=
  failure_status_and_summary 2 [] [] (by decide)
